import Mathlib

/-!
Verification of the cotter_arm byte-packing codec.

Shallow embedding of `src/compress/bytepacker.h` (the `BytePacker` class: width-specific
bit packers/unpackers for 4, 6, 8 and 12 bits plus the runtime dispatchers `pack` and
`unpack`) and of `src/offringastman/offringaweightcol.cpp` (the `OffringaWeightColumn`
cell orchestration: `Prepare`, `putArrayfloatV`, `getArrayfloatV`).

Modelling conventions:
- A byte buffer (`unsigned char*`) is a total function `Nat → Nat`; a store keeps the
  value modulo 256 exactly as an assignment to an `unsigned char` does, and a load
  yields the stored byte (a value below 256).
- The symbol buffer (`const unsigned*` input of length `symbolCount`) is the list of the
  `symbolCount` symbols read by the C++ code, in order; the pointer-walking loops of the
  source become structural recursion over that list (full groups first, then the same
  partial-group writes as the source's tail code).
- An unpacker returns the list of symbols it writes into the output buffer, in order;
  `symbolCount` is its explicit count argument, mirroring the C++ loop bound.
-/

/-- Byte memory: an `unsigned char` buffer modelled as a total function from byte index
to stored value. -/
def Mem : Type := Nat → Nat

/-- Byte store: the C++ assignment `*dest = v` to an `unsigned char` keeps `v % 256`. -/
def wr (m : Mem) (i v : Nat) : Mem := fun j => if j = i then v % 256 else m j

/-- Byte load: an `unsigned char` read yields the stored value reduced below 256. -/
def rd (m : Mem) (i : Nat) : Nat := m i % 256

/-- Read-modify-write `*dest |= v` on an `unsigned char`: load the byte, or in `v`,
store the result back. -/
def orWr (m : Mem) (i v : Nat) : Mem := wr m i (rd m i ||| v)

/-- Translation of `BytePacker::pack6` (bytepacker.h lines 108-158): four 6-bit symbols
per three bytes, with the source's partial-group tail for 1, 2 or 3 leftover symbols.
`di` is the current destination byte index (the `dest` pointer). -/
def pack6 (dest : Mem) (symbolBuffer : List Nat) (di : Nat) : Mem :=
  match symbolBuffer with
  | s0 :: s1 :: s2 :: s3 :: rest =>
    let m1 := wr dest di s0
    let m2 := orWr m1 di ((s1 &&& 3) <<< 6)
    let m3 := wr m2 (di + 1) ((s1 &&& 60) >>> 2)
    let m4 := orWr m3 (di + 1) ((s2 &&& 15) <<< 4)
    let m5 := wr m4 (di + 2) ((s2 &&& 48) >>> 4)
    let m6 := orWr m5 (di + 2) (s3 <<< 2)
    pack6 m6 rest (di + 3)
  | [s0] => wr dest di s0
  | [s0, s1] =>
    let m1 := wr dest di s0
    let m2 := orWr m1 di ((s1 &&& 3) <<< 6)
    wr m2 (di + 1) ((s1 &&& 60) >>> 2)
  | [s0, s1, s2] =>
    let m1 := wr dest di s0
    let m2 := orWr m1 di ((s1 &&& 3) <<< 6)
    let m3 := wr m2 (di + 1) ((s1 &&& 60) >>> 2)
    let m4 := orWr m3 (di + 1) ((s2 &&& 15) <<< 4)
    wr m4 (di + 2) ((s2 &&& 48) >>> 4)
  | [] => dest

/-- Translation of `BytePacker::unpack6` (bytepacker.h lines 160-207): produces the
`symbolCount` symbols written into the output buffer, reading packed bytes from index
`pi` (the `packedBuffer` pointer) onward. -/
def unpack6 (packedBuffer : Mem) (pi : Nat) (symbolCount : Nat) : List Nat :=
  match symbolCount with
  | 0 => []
  | 1 => [rd packedBuffer pi &&& 63]
  | 2 => [rd packedBuffer pi &&& 63,
          ((rd packedBuffer pi &&& 192) >>> 6) ||| ((rd packedBuffer (pi + 1) &&& 15) <<< 2)]
  | 3 => [rd packedBuffer pi &&& 63,
          ((rd packedBuffer pi &&& 192) >>> 6) ||| ((rd packedBuffer (pi + 1) &&& 15) <<< 2),
          ((rd packedBuffer (pi + 1) &&& 240) >>> 4) ||| ((rd packedBuffer (pi + 2) &&& 3) <<< 4)]
  | n + 4 =>
    (rd packedBuffer pi &&& 63) ::
    (((rd packedBuffer pi &&& 192) >>> 6) ||| ((rd packedBuffer (pi + 1) &&& 15) <<< 2)) ::
    (((rd packedBuffer (pi + 1) &&& 240) >>> 4) ||| ((rd packedBuffer (pi + 2) &&& 3) <<< 4)) ::
    ((rd packedBuffer (pi + 2) &&& 252) >>> 2) ::
    unpack6 packedBuffer (pi + 3) n

/-- Translation of `BytePacker::pack4` (bytepacker.h lines 209-222): two 4-bit symbols
per byte; an odd leftover symbol is assigned to the final byte. -/
def pack4 (dest : Mem) (symbolBuffer : List Nat) (di : Nat) : Mem :=
  match symbolBuffer with
  | s0 :: s1 :: rest => pack4 (orWr (wr dest di s0) di (s1 <<< 4)) rest (di + 1)
  | [s0] => wr dest di s0
  | [] => dest

/-- Translation of `BytePacker::unpack4` (bytepacker.h lines 224-237). -/
def unpack4 (packedBuffer : Mem) (pi : Nat) (symbolCount : Nat) : List Nat :=
  match symbolCount with
  | 0 => []
  | 1 => [rd packedBuffer pi &&& 0x0F]
  | n + 2 =>
    (rd packedBuffer pi &&& 0x0F) ::
    ((rd packedBuffer pi &&& 0xF0) >>> 4) ::
    unpack4 packedBuffer (pi + 1) n

/-- Translation of `BytePacker::pack8` (bytepacker.h lines 239-243): identity copy of
each symbol into one byte. -/
def pack8 (dest : Mem) (symbolBuffer : List Nat) (di : Nat) : Mem :=
  match symbolBuffer with
  | s :: rest => pack8 (wr dest di s) rest (di + 1)
  | [] => dest

/-- Translation of `BytePacker::unpack8` (bytepacker.h lines 245-249). -/
def unpack8 (packedBuffer : Mem) (pi : Nat) (symbolCount : Nat) : List Nat :=
  match symbolCount with
  | 0 => []
  | n + 1 => rd packedBuffer pi :: unpack8 packedBuffer (pi + 1) n

/-- Translation of `BytePacker::pack12` (bytepacker.h lines 251-275): two 12-bit symbols
per three bytes; an odd leftover symbol writes two bytes. -/
def pack12 (dest : Mem) (symbolBuffer : List Nat) (di : Nat) : Mem :=
  match symbolBuffer with
  | a :: b :: rest =>
    let m1 := wr dest di (a &&& 0x0FF)
    let m2 := wr m1 (di + 1) ((a &&& 0xF00) >>> 8)
    let m3 := orWr m2 (di + 1) ((b &&& 0x00F) <<< 4)
    let m4 := wr m3 (di + 2) ((b &&& 0xFF0) >>> 4)
    pack12 m4 rest (di + 3)
  | [a] => wr (wr dest di (a &&& 0x0FF)) (di + 1) ((a &&& 0xF00) >>> 8)
  | [] => dest

/-- Translation of `BytePacker::unpack12` (bytepacker.h lines 277-299). -/
def unpack12 (packedBuffer : Mem) (pi : Nat) (symbolCount : Nat) : List Nat :=
  match symbolCount with
  | 0 => []
  | 1 => [rd packedBuffer pi ||| ((rd packedBuffer (pi + 1) &&& 0x0F) <<< 8)]
  | n + 2 =>
    (rd packedBuffer pi ||| ((rd packedBuffer (pi + 1) &&& 0x0F) <<< 8)) ::
    (((rd packedBuffer (pi + 1) &&& 0xF0) >>> 4) ||| ((rd packedBuffer (pi + 2) &&& 0xFF) <<< 4)) ::
    unpack12 packedBuffer (pi + 3) n

/-- Translation of the runtime dispatcher `BytePacker::pack` (bytepacker.h lines 84-94):
a `switch` on `bitCount` with no `default` case, so an unsupported bit count falls
through and the destination buffer is returned unchanged. -/
def pack (bitCount : Nat) (dest : Mem) (symbolBuffer : List Nat) (di : Nat) : Mem :=
  match bitCount with
  | 4 => pack4 dest symbolBuffer di
  | 6 => pack6 dest symbolBuffer di
  | 8 => pack8 dest symbolBuffer di
  | 12 => pack12 dest symbolBuffer di
  | _ => dest

/-- Translation of the runtime dispatcher `BytePacker::unpack` (bytepacker.h lines
96-106): a `switch` on `bitCount` with no `default` case, so an unsupported bit count
writes no symbols at all (the empty list of written symbols). -/
def unpack (bitCount : Nat) (packedBuffer : Mem) (pi : Nat) (symbolCount : Nat) : List Nat :=
  match bitCount with
  | 4 => unpack4 packedBuffer pi symbolCount
  | 6 => unpack6 packedBuffer pi symbolCount
  | 8 => unpack8 packedBuffer pi symbolCount
  | 12 => unpack12 packedBuffer pi symbolCount
  | _ => []

/-- Byte-size contract of the packers: `ceil(symbolCount * bitCount / 8)` bytes. -/
def packedSize (bitCount symbolCount : Nat) : Nat := (symbolCount * bitCount + 7) / 8

/-- Configuration state of `OffringaWeightColumn` (offringaweightcol.cpp). Buffer
allocations are modelled by their sizes; `none` models a not-yet-allocated buffer
(`_encoder` and `_packBuffer` start as null pointers). -/
structure OffringaWeightColumnState where
  bitsPerSymbol : Nat
  shape : List Nat
  encoderLevels : Option Nat
  symbolsPerCell : Nat
  packBufferSize : Option Nat
  symbolBufferSize : Nat
  dataCopyBufferSize : Nat
deriving DecidableEq

/-- Modelled from the spec: the method `Stride()` is declared in `offringaweightcol.h`,
which is not under `src/`; the spec fixes the stride as
`sizeof(float) + ceil(symbolsPerCell * bitsPerSymbol / 8)` bytes, with
`sizeof(float) = 4`. -/
def Stride (symbolsPerCell bitsPerSymbol : Nat) : Nat :=
  4 + (symbolsPerCell * bitsPerSymbol + 7) / 8

/-- Translation of `OffringaWeightColumn::Prepare` (offringaweightcol.cpp lines 52-68):
throws when `_bitsPerSymbol` is zero (before any mutation), otherwise replaces the
encoder with one of `1 << _bitsPerSymbol` levels, recomputes `_symbolsPerCell` as the
product of the shape dimensions (a `1`-initialised running product over the shape), and
reallocates the pack buffer to `Stride()` bytes and both scratch buffers to
`_symbolsPerCell` elements. -/
def Prepare (s : OffringaWeightColumnState) : Except String OffringaWeightColumnState :=
  if s.bitsPerSymbol = 0 then
    Except.error "bitsPerSymbol not initialized in OffringaWeightCol"
  else
    let symbolsPerCell := s.shape.foldl (fun a b => a * b) 1
    Except.ok
      { bitsPerSymbol := s.bitsPerSymbol
        shape := s.shape
        encoderLevels := some (1 <<< s.bitsPerSymbol)
        symbolsPerCell := symbolsPerCell
        packBufferSize := some (Stride symbolsPerCell s.bitsPerSymbol)
        symbolBufferSize := symbolsPerCell
        dataCopyBufferSize := symbolsPerCell }

/-- State that claim C8 predicts after a successful `Prepare`, written from the spec's
words: `symbolsPerCell` is the product of all shape dimensions, the encoder has
`2 ^ bitsPerSymbol` levels, the pack buffer holds
`sizeof(float) + ceil(symbolsPerCell * bitsPerSymbol / 8)` bytes and the symbol and
float scratch buffers hold `symbolsPerCell` elements each. -/
def preparedState (s : OffringaWeightColumnState) : OffringaWeightColumnState :=
  { bitsPerSymbol := s.bitsPerSymbol
    shape := s.shape
    encoderLevels := some (2 ^ s.bitsPerSymbol)
    symbolsPerCell := s.shape.prod
    packBufferSize := some (4 + (s.shape.prod * s.bitsPerSymbol + 7) / 8)
    symbolBufferSize := s.shape.prod
    dataCopyBufferSize := s.shape.prod }

/-- Store of the 32-bit scale at bytes 0-3 of the pack buffer: models
`*reinterpret_cast<float*>(_packBuffer) = scale` as storing the four bytes of the
IEEE-754 bit pattern (taken as an opaque 32-bit value) in little-endian order. -/
def writeScale (m : Mem) (scaleBits : Nat) : Mem :=
  wr (wr (wr (wr m 0 scaleBits) 1 (scaleBits / 256)) 2 (scaleBits / 65536)) 3
    (scaleBits / 16777216)

/-- Load of the 32-bit scale from bytes 0-3 of the pack buffer: models
`*reinterpret_cast<float*>(_packBuffer)` reassembling the same four bytes. -/
def readScale (m : Mem) : Nat :=
  rd m 0 + 256 * rd m 1 + 65536 * rd m 2 + 16777216 * rd m 3

/-- Translation of the buffer-building part of `OffringaWeightColumn::putArrayfloatV`
(offringaweightcol.cpp lines 37-50): the external encoder's outputs (`scaleBits`, the
bit pattern `Encode` wrote through the `float*` cast, and `symbolBuffer`, the
`_symbolsPerCell` quantised symbols) are parameters, since `WeightEncoder` is not under
`src/`. The scale is written into the first `sizeof(float) = 4` bytes of the pack
buffer and the symbols are packed by the runtime dispatcher starting at byte offset 4;
the resulting buffer is what `writeCompressedData` persists. -/
def putArrayfloatV (bitsPerSymbol : Nat) (scaleBits : Nat) (symbolBuffer : List Nat)
    (packBuffer : Mem) : Mem :=
  pack bitsPerSymbol (writeScale packBuffer scaleBits) symbolBuffer 4

/-- Translation of the buffer-reading part of `OffringaWeightColumn::getArrayfloatV`
(offringaweightcol.cpp lines 21-35): from the raw cell buffer, the first 4 bytes are
reinterpreted as the scale and `_symbolsPerCell` symbols are unpacked by the runtime
dispatcher from byte offset `sizeof(float) = 4`; the pair is what the external
`Decode` consumes. -/
def getArrayfloatV (bitsPerSymbol symbolsPerCell : Nat) (packBuffer : Mem) :
    Nat × List Nat :=
  (readScale packBuffer, unpack bitsPerSymbol packBuffer 4 symbolsPerCell)

/-! Basic access lemmas for the byte-memory model. -/

theorem wr_self (m : Mem) (i v : Nat) : wr m i v i = v % 256 := by
  simp [wr]

theorem wr_ne (m : Mem) (i v j : Nat) (h : j ≠ i) : wr m i v j = m j := by
  simp [wr, h]

theorem orWr_self (m : Mem) (i v : Nat) : orWr m i v i = ((m i % 256) ||| v) % 256 := by
  simp [orWr, wr, rd]

theorem orWr_ne (m : Mem) (i v j : Nat) (h : j ≠ i) : orWr m i v j = m j := by
  simp [orWr, wr, h]

theorem rd_lt_256 (m : Mem) (i : Nat) : rd m i < 256 :=
  Nat.mod_lt _ (by omega)

/-! Monotonicity and bound helpers for the bit operations. -/

theorem shr_le_shr (a b k : Nat) (h : a ≤ b) : a >>> k ≤ b >>> k := by
  simp only [Nat.shiftRight_eq_div_pow]
  exact Nat.div_le_div_right h

theorem shl_le_shl (a b k : Nat) (h : a ≤ b) : a <<< k ≤ b <<< k := by
  simp only [Nat.shiftLeft_eq]
  exact Nat.mul_le_mul_right _ h

theorem and_shr_le (x c k : Nat) : (x &&& c) >>> k ≤ c >>> k :=
  shr_le_shr _ _ _ Nat.and_le_right

theorem lor_lt_256 (x y : Nat) (hx : x < 256) (hy : y < 256) : x ||| y < 256 :=
  Nat.or_lt_two_pow (n := 8) hx hy

theorem lor_lt_64 (x y : Nat) (hx : x < 64) (hy : y < 64) : x ||| y < 64 :=
  Nat.or_lt_two_pow (n := 6) hx hy

theorem lor_lt_16 (x y : Nat) (hx : x < 16) (hy : y < 16) : x ||| y < 16 :=
  Nat.or_lt_two_pow (n := 4) hx hy

theorem lor_lt_4096 (x y : Nat) (hx : x < 4096) (hy : y < 4096) : x ||| y < 4096 :=
  Nat.or_lt_two_pow (n := 12) hx hy

theorem b6_lt (s0 t : Nat) (h0 : s0 < 64) (ht : t < 4) : s0 ||| (t <<< 6) < 256 := by
  refine lor_lt_256 _ _ (by omega) ?_
  have := shl_le_shl t 3 6 (by omega)
  omega

theorem b44_lt (x y : Nat) (hx : x < 16) (hy : y < 16) : x ||| (y <<< 4) < 256 := by
  refine lor_lt_256 _ _ (by omega) ?_
  have := shl_le_shl y 15 4 (by omega)
  omega

theorem b2_lt (x y : Nat) (hx : x < 4) (hy : y < 64) : x ||| (y <<< 2) < 256 := by
  refine lor_lt_256 _ _ (by omega) ?_
  have := shl_le_shl y 63 2 (by omega)
  omega

/-! Bit-level identities on bounded values, settled by exhaustive evaluation. -/

set_option maxRecDepth 2000 in
theorem nibble_id : ∀ x < 16, x &&& 15 = x := by decide

set_option maxRecDepth 2000 in
theorem two_id : ∀ x < 4, x &&& 3 = x := by decide

set_option maxRecDepth 2000 in
theorem six_id : ∀ x < 64, x &&& 63 = x := by decide

set_option maxRecDepth 2000 in
theorem byte_and255 : ∀ x < 256, x &&& 255 = x := by decide

set_option maxRecDepth 2000 in
theorem nibble_lo : ∀ x < 16, ∀ y < 16, (x ||| (y <<< 4)) &&& 15 = x := by decide

set_option maxRecDepth 2000 in
theorem nibble_hi : ∀ x < 16, ∀ y < 16, ((x ||| (y <<< 4)) &&& 240) >>> 4 = y := by decide

set_option maxRecDepth 2000 in
theorem six_lo : ∀ x < 64, ∀ y < 4, (x ||| (y <<< 6)) &&& 63 = x := by decide

set_option maxRecDepth 2000 in
theorem six_hi : ∀ x < 64, ∀ y < 4, ((x ||| (y <<< 6)) &&& 192) >>> 6 = y := by decide

set_option maxRecDepth 2000 in
theorem two_lo : ∀ x < 4, ∀ y < 64, (x ||| (y <<< 2)) &&& 3 = x := by decide

set_option maxRecDepth 2000 in
theorem two_hi : ∀ x < 4, ∀ y < 64, ((x ||| (y <<< 2)) &&& 252) >>> 2 = y := by decide

set_option maxRecDepth 2000 in
theorem six_split_lo : ∀ s < 64, (s &&& 3) ||| (((s &&& 60) >>> 2) <<< 2) = s := by decide

set_option maxRecDepth 2000 in
theorem six_split_hi : ∀ s < 64, (s &&& 15) ||| (((s &&& 48) >>> 4) <<< 4) = s := by decide

set_option maxRecDepth 2000 in
theorem six_shr2 : ∀ b < 64, (b &&& 60) >>> 2 = (b >>> 2) &&& 15 := by decide

set_option maxRecDepth 2000 in
theorem six_shr4 : ∀ c < 64, (c &&& 48) >>> 4 = (c >>> 4) &&& 3 := by decide

set_option maxRecDepth 2000 in
theorem twelve_lo : ∀ hi < 16, ∀ lo < 256, (hi * 256 + lo) &&& 255 = lo := by decide

set_option maxRecDepth 2000 in
theorem twelve_hi : ∀ hi < 16, ∀ lo < 256, ((hi * 256 + lo) &&& 3840) >>> 8 = hi := by decide

set_option maxRecDepth 2000 in
theorem byte_word : ∀ hi < 16, ∀ lo < 256, lo ||| (hi <<< 8) = hi * 256 + lo := by decide

set_option maxRecDepth 4000 in
theorem twelve_split : ∀ hi < 16, ∀ lo < 256,
    ((hi * 256 + lo) &&& 15) ||| ((((hi * 256 + lo) &&& 4080) >>> 4) <<< 4) =
      hi * 256 + lo := by decide

/-! Frame and byte-content lemmas for the 6-bit packer. -/

theorem pack6_untouched (dest : Mem) (syms : List Nat) (di : Nat) :
    ∀ j, j < di ∨ di + packedSize 6 syms.length ≤ j → pack6 dest syms di j = dest j := by
  induction dest, syms, di using pack6.induct with
  | case1 dest di s0 s1 s2 s3 rest m1 m2 m3 m4 m5 m6 ih =>
    intro j hj
    simp only [List.length_cons, packedSize] at hj ⊢
    rw [pack6]
    rw [ih j (by simp only [packedSize]; omega)]
    simp only [m6, m5, m4, m3, m2, m1]
    rw [orWr_ne _ _ _ _ (by omega), wr_ne _ _ _ _ (by omega),
        orWr_ne _ _ _ _ (by omega), wr_ne _ _ _ _ (by omega),
        orWr_ne _ _ _ _ (by omega), wr_ne _ _ _ _ (by omega)]
  | case2 dest di s0 =>
    intro j hj
    simp only [List.length_cons, List.length_nil, packedSize] at hj
    rw [pack6, wr_ne _ _ _ _ (by omega)]
  | case3 dest di s0 s1 =>
    intro j hj
    simp only [List.length_cons, List.length_nil, packedSize] at hj
    rw [pack6]
    rw [wr_ne _ _ _ _ (by omega), orWr_ne _ _ _ _ (by omega), wr_ne _ _ _ _ (by omega)]
  | case4 dest di s0 s1 s2 =>
    intro j hj
    simp only [List.length_cons, List.length_nil, packedSize] at hj
    rw [pack6]
    rw [wr_ne _ _ _ _ (by omega), orWr_ne _ _ _ _ (by omega), wr_ne _ _ _ _ (by omega),
        orWr_ne _ _ _ _ (by omega), wr_ne _ _ _ _ (by omega)]
  | case5 dest di =>
    intro j hj
    rw [pack6]

theorem pack6_group_byte0 (dest : Mem) (s0 s1 s2 s3 : Nat) (rest : List Nat) (di : Nat)
    (h0 : s0 < 64) (h1 : s1 < 64) :
    pack6 dest (s0 :: s1 :: s2 :: s3 :: rest) di di = s0 ||| ((s1 &&& 3) <<< 6) := by
  rw [pack6]
  rw [pack6_untouched _ _ _ di (Or.inl (by omega))]
  rw [orWr_ne _ _ _ _ (by omega), wr_ne _ _ _ _ (by omega),
      orWr_ne _ _ _ _ (by omega), wr_ne _ _ _ _ (by omega)]
  rw [orWr_self, wr_self]
  have ht : s1 &&& 3 < 4 := by have := Nat.and_le_right (n := s1) (m := 3); omega
  have hs0 : s0 % 256 % 256 = s0 := by omega
  rw [hs0, Nat.mod_eq_of_lt (b6_lt _ _ h0 ht)]

theorem pack6_group_byte1 (dest : Mem) (s0 s1 s2 s3 : Nat) (rest : List Nat) (di : Nat)
    (h1 : s1 < 64) (h2 : s2 < 64) :
    pack6 dest (s0 :: s1 :: s2 :: s3 :: rest) di (di + 1) =
      ((s1 &&& 60) >>> 2) ||| ((s2 &&& 15) <<< 4) := by
  rw [pack6]
  rw [pack6_untouched _ _ _ (di + 1) (Or.inl (by omega))]
  rw [orWr_ne _ _ _ _ (by omega), wr_ne _ _ _ _ (by omega)]
  rw [orWr_self, wr_self]
  have hx : (s1 &&& 60) >>> 2 < 16 := by have := and_shr_le s1 60 2; omega
  have hy : s2 &&& 15 < 16 := by have := Nat.and_le_right (n := s2) (m := 15); omega
  have hv : (s1 &&& 60) >>> 2 % 256 % 256 = (s1 &&& 60) >>> 2 := by omega
  rw [hv, Nat.mod_eq_of_lt (b44_lt _ _ hx hy)]

theorem pack6_group_byte2 (dest : Mem) (s0 s1 s2 s3 : Nat) (rest : List Nat) (di : Nat)
    (h2 : s2 < 64) (h3 : s3 < 64) :
    pack6 dest (s0 :: s1 :: s2 :: s3 :: rest) di (di + 2) =
      ((s2 &&& 48) >>> 4) ||| (s3 <<< 2) := by
  rw [pack6]
  rw [pack6_untouched _ _ _ (di + 2) (Or.inl (by omega))]
  rw [orWr_self, wr_self]
  have hx : (s2 &&& 48) >>> 4 < 4 := by have := and_shr_le s2 48 4; omega
  have hv : (s2 &&& 48) >>> 4 % 256 % 256 = (s2 &&& 48) >>> 4 := by omega
  rw [hv, Nat.mod_eq_of_lt (b2_lt _ _ hx h3)]

theorem pack6_tail1_byte (dest : Mem) (s0 di : Nat) (h0 : s0 < 64) :
    pack6 dest [s0] di di = s0 := by
  rw [pack6, wr_self, Nat.mod_eq_of_lt (by omega)]

theorem pack6_tail2_byte0 (dest : Mem) (s0 s1 di : Nat) (h0 : s0 < 64) :
    pack6 dest [s0, s1] di di = s0 ||| ((s1 &&& 3) <<< 6) := by
  rw [pack6]
  rw [wr_ne _ _ _ _ (by omega), orWr_self, wr_self]
  have ht : s1 &&& 3 < 4 := by have := Nat.and_le_right (n := s1) (m := 3); omega
  have hs0 : s0 % 256 % 256 = s0 := by omega
  rw [hs0, Nat.mod_eq_of_lt (b6_lt _ _ h0 ht)]

theorem pack6_tail2_byte1 (dest : Mem) (s0 s1 di : Nat) :
    pack6 dest [s0, s1] di (di + 1) = (s1 &&& 60) >>> 2 := by
  rw [pack6, wr_self]
  have hx : (s1 &&& 60) >>> 2 < 16 := by have := and_shr_le s1 60 2; omega
  rw [Nat.mod_eq_of_lt (by omega)]

theorem pack6_tail3_byte0 (dest : Mem) (s0 s1 s2 di : Nat) (h0 : s0 < 64) :
    pack6 dest [s0, s1, s2] di di = s0 ||| ((s1 &&& 3) <<< 6) := by
  rw [pack6]
  rw [wr_ne _ _ _ _ (by omega), orWr_ne _ _ _ _ (by omega), wr_ne _ _ _ _ (by omega),
      orWr_self, wr_self]
  have ht : s1 &&& 3 < 4 := by have := Nat.and_le_right (n := s1) (m := 3); omega
  have hs0 : s0 % 256 % 256 = s0 := by omega
  rw [hs0, Nat.mod_eq_of_lt (b6_lt _ _ h0 ht)]

theorem pack6_tail3_byte1 (dest : Mem) (s0 s1 s2 di : Nat) :
    pack6 dest [s0, s1, s2] di (di + 1) = ((s1 &&& 60) >>> 2) ||| ((s2 &&& 15) <<< 4) := by
  rw [pack6]
  rw [wr_ne _ _ _ _ (by omega), orWr_self, wr_self]
  have hx : (s1 &&& 60) >>> 2 < 16 := by have := and_shr_le s1 60 2; omega
  have hy : s2 &&& 15 < 16 := by have := Nat.and_le_right (n := s2) (m := 15); omega
  have hv : (s1 &&& 60) >>> 2 % 256 % 256 = (s1 &&& 60) >>> 2 := by omega
  rw [hv, Nat.mod_eq_of_lt (b44_lt _ _ hx hy)]

theorem pack6_tail3_byte2 (dest : Mem) (s0 s1 s2 di : Nat) :
    pack6 dest [s0, s1, s2] di (di + 2) = (s2 &&& 48) >>> 4 := by
  rw [pack6, wr_self]
  have hx : (s2 &&& 48) >>> 4 < 4 := by have := and_shr_le s2 48 4; omega
  rw [Nat.mod_eq_of_lt (by omega)]

theorem unpack6_length (m : Mem) (pi n : Nat) : (unpack6 m pi n).length = n := by
  induction pi, n using unpack6.induct m with
  | case1 pi => rfl
  | case2 pi => rfl
  | case3 pi => rfl
  | case4 pi => rfl
  | case5 pi n ih => simp [unpack6, ih]

theorem unpack6_congr (m : Mem) (pi n : Nat) :
    ∀ m2 : Mem, (∀ i, i < packedSize 6 n → m (pi + i) = m2 (pi + i)) →
      unpack6 m pi n = unpack6 m2 pi n := by
  induction pi, n using unpack6.induct m with
  | case1 pi => intro m2 h; rfl
  | case2 pi =>
    intro m2 h
    have h0 := h 0 (by simp [packedSize])
    simp only [Nat.add_zero] at h0
    simp only [unpack6, rd, h0]
  | case3 pi =>
    intro m2 h
    have h0 := h 0 (by simp [packedSize])
    have h1 := h 1 (by simp [packedSize])
    simp only [Nat.add_zero] at h0
    simp only [unpack6, rd, h0, h1]
  | case4 pi =>
    intro m2 h
    have h0 := h 0 (by simp [packedSize])
    have h1 := h 1 (by simp [packedSize])
    have h2 := h 2 (by simp [packedSize])
    simp only [Nat.add_zero] at h0
    simp only [unpack6, rd, h0, h1, h2]
  | case5 pi n ih =>
    intro m2 h
    have hsz : packedSize 6 (n + 4) = 3 + packedSize 6 n := by simp only [packedSize]; omega
    have h0 := h 0 (by rw [hsz]; omega)
    have h1 := h 1 (by rw [hsz]; omega)
    have h2 := h 2 (by rw [hsz]; omega)
    simp only [Nat.add_zero] at h0
    have htail : unpack6 m (pi + 3) n = unpack6 m2 (pi + 3) n := by
      refine ih m2 ?_
      intro i hi
      have := h (3 + i) (by rw [hsz]; omega)
      have harr : pi + (3 + i) = pi + 3 + i := by omega
      rwa [harr] at this
    simp only [unpack6, rd, h0, h1, h2, htail]

theorem unpack6_pack6 (dest : Mem) (syms : List Nat) (di : Nat) :
    (∀ s ∈ syms, s < 64) → unpack6 (pack6 dest syms di) di syms.length = syms := by
  induction dest, syms, di using pack6.induct with
  | case1 dest di s0 s1 s2 s3 rest m1 m2 m3 m4 m5 m6 ih =>
    intro h
    have h0 : s0 < 64 := h s0 (by simp)
    have h1 : s1 < 64 := h s1 (by simp)
    have h2 : s2 < 64 := h s2 (by simp)
    have h3 : s3 < 64 := h s3 (by simp)
    have hrest : ∀ s ∈ rest, s < 64 := fun s hs => h s (by simp [hs])
    have hlt3 : s1 &&& 3 < 4 := by have := Nat.and_le_right (n := s1) (m := 3); omega
    have hx1 : (s1 &&& 60) >>> 2 < 16 := by have := and_shr_le s1 60 2; omega
    have hy1 : s2 &&& 15 < 16 := by have := Nat.and_le_right (n := s2) (m := 15); omega
    have hx2 : (s2 &&& 48) >>> 4 < 4 := by have := and_shr_le s2 48 4; omega
    have hlen : (s0 :: s1 :: s2 :: s3 :: rest).length = rest.length + 4 := rfl
    rw [hlen, unpack6]
    simp only [rd]
    rw [pack6_group_byte0 dest s0 s1 s2 s3 rest di h0 h1,
        pack6_group_byte1 dest s0 s1 s2 s3 rest di h1 h2,
        pack6_group_byte2 dest s0 s1 s2 s3 rest di h2 h3]
    rw [Nat.mod_eq_of_lt (b6_lt _ _ h0 hlt3), Nat.mod_eq_of_lt (b44_lt _ _ hx1 hy1),
        Nat.mod_eq_of_lt (b2_lt _ _ hx2 h3)]
    rw [six_lo s0 h0 (s1 &&& 3) hlt3, six_hi s0 h0 (s1 &&& 3) hlt3,
        nibble_lo _ hx1 _ hy1, nibble_hi _ hx1 _ hy1,
        two_lo _ hx2 _ h3, two_hi _ hx2 _ h3,
        six_split_lo s1 h1, six_split_hi s2 h2]
    rw [pack6]
    rw [ih hrest]
  | case2 dest di s0 =>
    intro h
    have h0 : s0 < 64 := h s0 (by simp)
    have hlen : ([s0] : List Nat).length = 1 := rfl
    rw [hlen, unpack6]
    simp only [rd]
    rw [pack6_tail1_byte dest s0 di h0, Nat.mod_eq_of_lt (by omega), six_id s0 h0]
  | case3 dest di s0 s1 =>
    intro h
    have h0 : s0 < 64 := h s0 (by simp)
    have h1 : s1 < 64 := h s1 (by simp)
    have hlt3 : s1 &&& 3 < 4 := by have := Nat.and_le_right (n := s1) (m := 3); omega
    have hx1 : (s1 &&& 60) >>> 2 < 16 := by have := and_shr_le s1 60 2; omega
    have hlen : ([s0, s1] : List Nat).length = 2 := rfl
    rw [hlen, unpack6]
    simp only [rd]
    rw [pack6_tail2_byte0 dest s0 s1 di h0, pack6_tail2_byte1 dest s0 s1 di]
    rw [Nat.mod_eq_of_lt (b6_lt _ _ h0 hlt3), Nat.mod_eq_of_lt (by omega : (s1 &&& 60) >>> 2 < 256)]
    rw [six_lo s0 h0 (s1 &&& 3) hlt3, six_hi s0 h0 (s1 &&& 3) hlt3,
        nibble_id _ hx1, six_split_lo s1 h1]
  | case4 dest di s0 s1 s2 =>
    intro h
    have h0 : s0 < 64 := h s0 (by simp)
    have h1 : s1 < 64 := h s1 (by simp)
    have h2 : s2 < 64 := h s2 (by simp)
    have hlt3 : s1 &&& 3 < 4 := by have := Nat.and_le_right (n := s1) (m := 3); omega
    have hx1 : (s1 &&& 60) >>> 2 < 16 := by have := and_shr_le s1 60 2; omega
    have hy1 : s2 &&& 15 < 16 := by have := Nat.and_le_right (n := s2) (m := 15); omega
    have hx2 : (s2 &&& 48) >>> 4 < 4 := by have := and_shr_le s2 48 4; omega
    have hlen : ([s0, s1, s2] : List Nat).length = 3 := rfl
    rw [hlen, unpack6]
    simp only [rd]
    rw [pack6_tail3_byte0 dest s0 s1 s2 di h0, pack6_tail3_byte1 dest s0 s1 s2 di,
        pack6_tail3_byte2 dest s0 s1 s2 di]
    rw [Nat.mod_eq_of_lt (b6_lt _ _ h0 hlt3), Nat.mod_eq_of_lt (b44_lt _ _ hx1 hy1),
        Nat.mod_eq_of_lt (by omega : (s2 &&& 48) >>> 4 < 256)]
    rw [six_lo s0 h0 (s1 &&& 3) hlt3, six_hi s0 h0 (s1 &&& 3) hlt3,
        nibble_lo _ hx1 _ hy1, nibble_hi _ hx1 _ hy1,
        two_id _ hx2, six_split_lo s1 h1, six_split_hi s2 h2]
  | case5 dest di =>
    intro h
    rfl

theorem pack6_raw_byte0 (dest : Mem) (s0 s1 s2 s3 : Nat) (rest : List Nat) (di : Nat) :
    pack6 dest (s0 :: s1 :: s2 :: s3 :: rest) di di =
      (s0 % 256 % 256 ||| (s1 &&& 3) <<< 6) % 256 := by
  rw [pack6]
  rw [pack6_untouched _ _ _ di (Or.inl (by omega))]
  rw [orWr_ne _ _ _ _ (by omega), wr_ne _ _ _ _ (by omega),
      orWr_ne _ _ _ _ (by omega), wr_ne _ _ _ _ (by omega), orWr_self, wr_self]

theorem pack6_raw_byte1 (dest : Mem) (s0 s1 s2 s3 : Nat) (rest : List Nat) (di : Nat) :
    pack6 dest (s0 :: s1 :: s2 :: s3 :: rest) di (di + 1) =
      ((s1 &&& 60) >>> 2 % 256 % 256 ||| (s2 &&& 15) <<< 4) % 256 := by
  rw [pack6]
  rw [pack6_untouched _ _ _ (di + 1) (Or.inl (by omega))]
  rw [orWr_ne _ _ _ _ (by omega), wr_ne _ _ _ _ (by omega), orWr_self, wr_self]

theorem pack6_raw_byte2 (dest : Mem) (s0 s1 s2 s3 : Nat) (rest : List Nat) (di : Nat) :
    pack6 dest (s0 :: s1 :: s2 :: s3 :: rest) di (di + 2) =
      ((s2 &&& 48) >>> 4 % 256 % 256 ||| s3 <<< 2) % 256 := by
  rw [pack6]
  rw [pack6_untouched _ _ _ (di + 2) (Or.inl (by omega))]
  rw [orWr_self, wr_self]

theorem pack6_raw_tail1 (dest : Mem) (s0 di : Nat) :
    pack6 dest [s0] di di = s0 % 256 := by
  rw [pack6, wr_self]

theorem pack6_raw_tail2_byte0 (dest : Mem) (s0 s1 di : Nat) :
    pack6 dest [s0, s1] di di = (s0 % 256 % 256 ||| (s1 &&& 3) <<< 6) % 256 := by
  rw [pack6]
  rw [wr_ne _ _ _ _ (by omega), orWr_self, wr_self]

theorem pack6_raw_tail2_byte1 (dest : Mem) (s0 s1 di : Nat) :
    pack6 dest [s0, s1] di (di + 1) = (s1 &&& 60) >>> 2 % 256 := by
  rw [pack6, wr_self]

theorem pack6_raw_tail3_byte0 (dest : Mem) (s0 s1 s2 di : Nat) :
    pack6 dest [s0, s1, s2] di di = (s0 % 256 % 256 ||| (s1 &&& 3) <<< 6) % 256 := by
  rw [pack6]
  rw [wr_ne _ _ _ _ (by omega), orWr_ne _ _ _ _ (by omega), wr_ne _ _ _ _ (by omega),
      orWr_self, wr_self]

theorem pack6_raw_tail3_byte1 (dest : Mem) (s0 s1 s2 di : Nat) :
    pack6 dest [s0, s1, s2] di (di + 1) =
      ((s1 &&& 60) >>> 2 % 256 % 256 ||| (s2 &&& 15) <<< 4) % 256 := by
  rw [pack6]
  rw [wr_ne _ _ _ _ (by omega), orWr_self, wr_self]

theorem pack6_raw_tail3_byte2 (dest : Mem) (s0 s1 s2 di : Nat) :
    pack6 dest [s0, s1, s2] di (di + 2) = (s2 &&& 48) >>> 4 % 256 := by
  rw [pack6, wr_self]

theorem pack6_written (dest : Mem) (syms : List Nat) (di : Nat) :
    ∀ (dest2 : Mem) (j : Nat), j < packedSize 6 syms.length →
      pack6 dest syms di (di + j) = pack6 dest2 syms di (di + j) := by
  induction dest, syms, di using pack6.induct with
  | case1 dest di s0 s1 s2 s3 rest m1 m2 m3 m4 m5 m6 ih =>
    intro dest2 j hj
    simp only [List.length_cons, packedSize] at hj
    by_cases hj3 : j < 3
    · obtain rfl | rfl | rfl : j = 0 ∨ j = 1 ∨ j = 2 := by omega
      · simp only [Nat.add_zero]
        rw [pack6_raw_byte0, pack6_raw_byte0]
      · rw [pack6_raw_byte1, pack6_raw_byte1]
      · rw [pack6_raw_byte2, pack6_raw_byte2]
    · have h3 : di + j = di + 3 + (j - 3) := by omega
      rw [pack6]
      rw [pack6]
      rw [h3]
      exact ih _ (j - 3) (by simp only [packedSize]; omega)
  | case2 dest di s0 =>
    intro dest2 j hj
    simp only [List.length_cons, List.length_nil, packedSize] at hj
    obtain rfl : j = 0 := by omega
    simp only [Nat.add_zero]
    rw [pack6_raw_tail1, pack6_raw_tail1]
  | case3 dest di s0 s1 =>
    intro dest2 j hj
    simp only [List.length_cons, List.length_nil, packedSize] at hj
    obtain rfl | rfl : j = 0 ∨ j = 1 := by omega
    · simp only [Nat.add_zero]
      rw [pack6_raw_tail2_byte0, pack6_raw_tail2_byte0]
    · rw [pack6_raw_tail2_byte1, pack6_raw_tail2_byte1]
  | case4 dest di s0 s1 s2 =>
    intro dest2 j hj
    simp only [List.length_cons, List.length_nil, packedSize] at hj
    obtain rfl | rfl | rfl : j = 0 ∨ j = 1 ∨ j = 2 := by omega
    · simp only [Nat.add_zero]
      rw [pack6_raw_tail3_byte0, pack6_raw_tail3_byte0]
    · rw [pack6_raw_tail3_byte1, pack6_raw_tail3_byte1]
    · rw [pack6_raw_tail3_byte2, pack6_raw_tail3_byte2]
  | case5 dest di =>
    intro dest2 j hj
    simp only [List.length_nil, packedSize] at hj
    omega

/-! Frame, byte-content, and round-trip lemmas for the 4-bit packer. -/

theorem pack4_untouched (dest : Mem) (syms : List Nat) (di : Nat) :
    ∀ j, j < di ∨ di + packedSize 4 syms.length ≤ j → pack4 dest syms di j = dest j := by
  induction dest, syms, di using pack4.induct with
  | case1 dest di s0 s1 rest ih =>
    intro j hj
    simp only [List.length_cons, packedSize] at hj
    rw [pack4]
    rw [ih j (by simp only [packedSize]; omega)]
    rw [orWr_ne _ _ _ _ (by omega), wr_ne _ _ _ _ (by omega)]
  | case2 dest di s0 =>
    intro j hj
    simp only [List.length_cons, List.length_nil, packedSize] at hj
    rw [pack4, wr_ne _ _ _ _ (by omega)]
  | case3 dest di =>
    intro j hj
    rw [pack4]

theorem pack4_raw_pair (dest : Mem) (s0 s1 : Nat) (rest : List Nat) (di : Nat) :
    pack4 dest (s0 :: s1 :: rest) di di = (s0 % 256 % 256 ||| s1 <<< 4) % 256 := by
  rw [pack4]
  rw [pack4_untouched _ _ _ di (Or.inl (by omega)), orWr_self, wr_self]

theorem pack4_raw_tail (dest : Mem) (s0 di : Nat) :
    pack4 dest [s0] di di = s0 % 256 := by
  rw [pack4, wr_self]

theorem pack4_pair_byte (dest : Mem) (s0 s1 : Nat) (rest : List Nat) (di : Nat)
    (h0 : s0 < 16) (h1 : s1 < 16) :
    pack4 dest (s0 :: s1 :: rest) di di = s0 ||| (s1 <<< 4) := by
  rw [pack4_raw_pair]
  have hs0 : s0 % 256 % 256 = s0 := by omega
  rw [hs0, Nat.mod_eq_of_lt (b44_lt _ _ h0 h1)]

theorem pack4_written (dest : Mem) (syms : List Nat) (di : Nat) :
    ∀ (dest2 : Mem) (j : Nat), j < packedSize 4 syms.length →
      pack4 dest syms di (di + j) = pack4 dest2 syms di (di + j) := by
  induction dest, syms, di using pack4.induct with
  | case1 dest di s0 s1 rest ih =>
    intro dest2 j hj
    simp only [List.length_cons, packedSize] at hj
    by_cases hj1 : j = 0
    · subst hj1
      simp only [Nat.add_zero]
      rw [pack4_raw_pair, pack4_raw_pair]
    · have h1 : di + j = di + 1 + (j - 1) := by omega
      rw [pack4]
      rw [pack4]
      rw [h1]
      exact ih _ (j - 1) (by simp only [packedSize]; omega)
  | case2 dest di s0 =>
    intro dest2 j hj
    simp only [List.length_cons, List.length_nil, packedSize] at hj
    obtain rfl : j = 0 := by omega
    simp only [Nat.add_zero]
    rw [pack4_raw_tail, pack4_raw_tail]
  | case3 dest di =>
    intro dest2 j hj
    simp only [List.length_nil, packedSize] at hj
    omega

theorem unpack4_length (m : Mem) (pi n : Nat) : (unpack4 m pi n).length = n := by
  induction pi, n using unpack4.induct m with
  | case1 pi => rfl
  | case2 pi => rfl
  | case3 pi n ih => simp [unpack4, ih]

theorem unpack4_congr (m : Mem) (pi n : Nat) :
    ∀ m2 : Mem, (∀ i, i < packedSize 4 n → m (pi + i) = m2 (pi + i)) →
      unpack4 m pi n = unpack4 m2 pi n := by
  induction pi, n using unpack4.induct m with
  | case1 pi => intro m2 h; rfl
  | case2 pi =>
    intro m2 h
    have h0 := h 0 (by simp [packedSize])
    simp only [Nat.add_zero] at h0
    simp only [unpack4, rd, h0]
  | case3 pi n ih =>
    intro m2 h
    have hsz : packedSize 4 (n + 2) = 1 + packedSize 4 n := by simp only [packedSize]; omega
    have h0 := h 0 (by rw [hsz]; omega)
    simp only [Nat.add_zero] at h0
    have htail : unpack4 m (pi + 1) n = unpack4 m2 (pi + 1) n := by
      refine ih m2 ?_
      intro i hi
      have := h (1 + i) (by rw [hsz]; omega)
      have harr : pi + (1 + i) = pi + 1 + i := by omega
      rwa [harr] at this
    simp only [unpack4, rd, h0, htail]

theorem unpack4_pack4 (dest : Mem) (syms : List Nat) (di : Nat) :
    (∀ s ∈ syms, s < 16) → unpack4 (pack4 dest syms di) di syms.length = syms := by
  induction dest, syms, di using pack4.induct with
  | case1 dest di s0 s1 rest ih =>
    intro h
    have h0 : s0 < 16 := h s0 (by simp)
    have h1 : s1 < 16 := h s1 (by simp)
    have hrest : ∀ s ∈ rest, s < 16 := fun s hs => h s (by simp [hs])
    have hlen : (s0 :: s1 :: rest).length = rest.length + 2 := rfl
    rw [hlen, unpack4]
    simp only [rd]
    rw [pack4_pair_byte dest s0 s1 rest di h0 h1]
    rw [Nat.mod_eq_of_lt (b44_lt _ _ h0 h1)]
    rw [nibble_lo s0 h0 s1 h1, nibble_hi s0 h0 s1 h1]
    rw [pack4]
    rw [ih hrest]
  | case2 dest di s0 =>
    intro h
    have h0 : s0 < 16 := h s0 (by simp)
    have hlen : ([s0] : List Nat).length = 1 := rfl
    rw [hlen, unpack4]
    simp only [rd]
    rw [pack4_raw_tail, Nat.mod_eq_of_lt (by omega : s0 % 256 < 256)]
    have hs0 : s0 % 256 = s0 := by omega
    rw [hs0, nibble_id s0 h0]
  | case3 dest di =>
    intro h
    rfl

/-! Frame, byte-content, and round-trip lemmas for the 8-bit packer. -/

theorem pack8_untouched (dest : Mem) (syms : List Nat) (di : Nat) :
    ∀ j, j < di ∨ di + packedSize 8 syms.length ≤ j → pack8 dest syms di j = dest j := by
  induction dest, syms, di using pack8.induct with
  | case1 dest di s rest ih =>
    intro j hj
    simp only [List.length_cons, packedSize] at hj
    rw [pack8]
    rw [ih j (by simp only [packedSize]; omega)]
    rw [wr_ne _ _ _ _ (by omega)]
  | case2 dest di =>
    intro j hj
    rw [pack8]

theorem pack8_raw_byte (dest : Mem) (s : Nat) (rest : List Nat) (di : Nat) :
    pack8 dest (s :: rest) di di = s % 256 := by
  rw [pack8]
  rw [pack8_untouched _ _ _ di (Or.inl (by omega)), wr_self]

theorem pack8_written (dest : Mem) (syms : List Nat) (di : Nat) :
    ∀ (dest2 : Mem) (j : Nat), j < packedSize 8 syms.length →
      pack8 dest syms di (di + j) = pack8 dest2 syms di (di + j) := by
  induction dest, syms, di using pack8.induct with
  | case1 dest di s rest ih =>
    intro dest2 j hj
    simp only [List.length_cons, packedSize] at hj
    by_cases hj1 : j = 0
    · subst hj1
      simp only [Nat.add_zero]
      rw [pack8_raw_byte, pack8_raw_byte]
    · have h1 : di + j = di + 1 + (j - 1) := by omega
      rw [pack8]
      rw [pack8]
      rw [h1]
      exact ih _ (j - 1) (by simp only [packedSize]; omega)
  | case2 dest di =>
    intro dest2 j hj
    simp only [List.length_nil, packedSize] at hj
    omega

theorem unpack8_length (m : Mem) (pi n : Nat) : (unpack8 m pi n).length = n := by
  induction pi, n using unpack8.induct m with
  | case1 pi => rfl
  | case2 pi n ih => simp [unpack8, ih]

theorem unpack8_congr (m : Mem) (pi n : Nat) :
    ∀ m2 : Mem, (∀ i, i < packedSize 8 n → m (pi + i) = m2 (pi + i)) →
      unpack8 m pi n = unpack8 m2 pi n := by
  induction pi, n using unpack8.induct m with
  | case1 pi => intro m2 h; rfl
  | case2 pi n ih =>
    intro m2 h
    have hsz : packedSize 8 (n + 1) = 1 + packedSize 8 n := by simp only [packedSize]; omega
    have h0 := h 0 (by rw [hsz]; omega)
    simp only [Nat.add_zero] at h0
    have htail : unpack8 m (pi + 1) n = unpack8 m2 (pi + 1) n := by
      refine ih m2 ?_
      intro i hi
      have := h (1 + i) (by rw [hsz]; omega)
      have harr : pi + (1 + i) = pi + 1 + i := by omega
      rwa [harr] at this
    simp only [unpack8, rd, h0, htail]

theorem unpack8_pack8 (dest : Mem) (syms : List Nat) (di : Nat) :
    (∀ s ∈ syms, s < 256) → unpack8 (pack8 dest syms di) di syms.length = syms := by
  induction dest, syms, di using pack8.induct with
  | case1 dest di s rest ih =>
    intro h
    have h0 : s < 256 := h s (by simp)
    have hrest : ∀ x ∈ rest, x < 256 := fun x hx => h x (by simp [hx])
    have hlen : (s :: rest).length = rest.length + 1 := rfl
    rw [hlen, unpack8]
    simp only [rd]
    rw [pack8_raw_byte]
    have hs : s % 256 % 256 = s := by omega
    rw [hs]
    rw [pack8]
    rw [ih hrest]
  | case2 dest di =>
    intro h
    rfl

/-! Frame, byte-content, and round-trip lemmas for the 12-bit packer. -/

theorem and255_eq_mod (a : Nat) (ha : a < 4096) : a &&& 255 = a % 256 := by
  have h := twelve_lo (a / 256) (by omega) (a % 256) (by omega)
  have hsplit : a / 256 * 256 + a % 256 = a := by omega
  rwa [hsplit] at h

theorem and3840_shr8 (a : Nat) (ha : a < 4096) : (a &&& 3840) >>> 8 = a / 256 := by
  have h := twelve_hi (a / 256) (by omega) (a % 256) (by omega)
  have hsplit : a / 256 * 256 + a % 256 = a := by omega
  rwa [hsplit] at h

theorem byte_word_eq (a : Nat) (ha : a < 4096) : (a % 256) ||| ((a / 256) <<< 8) = a := by
  have h := byte_word (a / 256) (by omega) (a % 256) (by omega)
  have hsplit : a / 256 * 256 + a % 256 = a := by omega
  rwa [hsplit] at h

theorem twelve_split_eq (b : Nat) (hb : b < 4096) :
    (b &&& 15) ||| (((b &&& 4080) >>> 4) <<< 4) = b := by
  have h := twelve_split (b / 256) (by omega) (b % 256) (by omega)
  have hsplit : b / 256 * 256 + b % 256 = b := by omega
  rwa [hsplit] at h

theorem pack12_untouched (dest : Mem) (syms : List Nat) (di : Nat) :
    ∀ j, j < di ∨ di + packedSize 12 syms.length ≤ j → pack12 dest syms di j = dest j := by
  induction dest, syms, di using pack12.induct with
  | case1 dest di a b rest m1 m2 m3 m4 ih =>
    intro j hj
    simp only [List.length_cons, packedSize] at hj
    rw [pack12]
    rw [ih j (by simp only [packedSize]; omega)]
    simp only [m4, m3, m2, m1]
    rw [wr_ne _ _ _ _ (by omega), orWr_ne _ _ _ _ (by omega),
        wr_ne _ _ _ _ (by omega), wr_ne _ _ _ _ (by omega)]
  | case2 dest di a =>
    intro j hj
    simp only [List.length_cons, List.length_nil, packedSize] at hj
    rw [pack12]
    rw [wr_ne _ _ _ _ (by omega), wr_ne _ _ _ _ (by omega)]
  | case3 dest di =>
    intro j hj
    rw [pack12]

theorem pack12_raw_byte0 (dest : Mem) (a b : Nat) (rest : List Nat) (di : Nat) :
    pack12 dest (a :: b :: rest) di di = (a &&& 255) % 256 := by
  rw [pack12]
  rw [pack12_untouched _ _ _ di (Or.inl (by omega))]
  rw [wr_ne _ _ _ _ (by omega), orWr_ne _ _ _ _ (by omega), wr_ne _ _ _ _ (by omega),
      wr_self]

theorem pack12_raw_byte1 (dest : Mem) (a b : Nat) (rest : List Nat) (di : Nat) :
    pack12 dest (a :: b :: rest) di (di + 1) =
      ((a &&& 3840) >>> 8 % 256 % 256 ||| (b &&& 15) <<< 4) % 256 := by
  rw [pack12]
  rw [pack12_untouched _ _ _ (di + 1) (Or.inl (by omega))]
  rw [wr_ne _ _ _ _ (by omega), orWr_self, wr_self]

theorem pack12_raw_byte2 (dest : Mem) (a b : Nat) (rest : List Nat) (di : Nat) :
    pack12 dest (a :: b :: rest) di (di + 2) = (b &&& 4080) >>> 4 % 256 := by
  rw [pack12]
  rw [pack12_untouched _ _ _ (di + 2) (Or.inl (by omega))]
  rw [wr_self]

theorem pack12_raw_tail_byte0 (dest : Mem) (a di : Nat) :
    pack12 dest [a] di di = (a &&& 255) % 256 := by
  rw [pack12]
  rw [wr_ne _ _ _ _ (by omega), wr_self]

theorem pack12_raw_tail_byte1 (dest : Mem) (a di : Nat) :
    pack12 dest [a] di (di + 1) = (a &&& 3840) >>> 8 % 256 := by
  rw [pack12, wr_self]

theorem pack12_group_byte0 (dest : Mem) (a b : Nat) (rest : List Nat) (di : Nat)
    (ha : a < 4096) :
    pack12 dest (a :: b :: rest) di di = a % 256 := by
  rw [pack12_raw_byte0, and255_eq_mod a ha]
  omega

theorem pack12_group_byte1 (dest : Mem) (a b : Nat) (rest : List Nat) (di : Nat)
    (ha : a < 4096) :
    pack12 dest (a :: b :: rest) di (di + 1) = (a / 256) ||| ((b &&& 15) <<< 4) := by
  rw [pack12_raw_byte1, and3840_shr8 a ha]
  have h1 : a / 256 % 256 % 256 = a / 256 := by omega
  have hx : a / 256 < 16 := by omega
  have hy : b &&& 15 < 16 := by have := Nat.and_le_right (n := b) (m := 15); omega
  rw [h1, Nat.mod_eq_of_lt (b44_lt _ _ hx hy)]

theorem pack12_group_byte2 (dest : Mem) (a b : Nat) (rest : List Nat) (di : Nat) :
    pack12 dest (a :: b :: rest) di (di + 2) = (b &&& 4080) >>> 4 := by
  rw [pack12_raw_byte2]
  have hx : (b &&& 4080) >>> 4 < 256 := by have := and_shr_le b 4080 4; omega
  omega

theorem pack12_tail_byte0 (dest : Mem) (a di : Nat) (ha : a < 4096) :
    pack12 dest [a] di di = a % 256 := by
  rw [pack12_raw_tail_byte0, and255_eq_mod a ha]
  omega

theorem pack12_tail_byte1 (dest : Mem) (a di : Nat) (ha : a < 4096) :
    pack12 dest [a] di (di + 1) = a / 256 := by
  rw [pack12_raw_tail_byte1, and3840_shr8 a ha]
  omega

theorem pack12_written (dest : Mem) (syms : List Nat) (di : Nat) :
    ∀ (dest2 : Mem) (j : Nat), j < packedSize 12 syms.length →
      pack12 dest syms di (di + j) = pack12 dest2 syms di (di + j) := by
  induction dest, syms, di using pack12.induct with
  | case1 dest di a b rest m1 m2 m3 m4 ih =>
    intro dest2 j hj
    simp only [List.length_cons, packedSize] at hj
    by_cases hj3 : j < 3
    · obtain rfl | rfl | rfl : j = 0 ∨ j = 1 ∨ j = 2 := by omega
      · simp only [Nat.add_zero]
        rw [pack12_raw_byte0, pack12_raw_byte0]
      · rw [pack12_raw_byte1, pack12_raw_byte1]
      · rw [pack12_raw_byte2, pack12_raw_byte2]
    · have h3 : di + j = di + 3 + (j - 3) := by omega
      rw [pack12]
      rw [pack12]
      rw [h3]
      exact ih _ (j - 3) (by simp only [packedSize]; omega)
  | case2 dest di a =>
    intro dest2 j hj
    simp only [List.length_cons, List.length_nil, packedSize] at hj
    obtain rfl | rfl : j = 0 ∨ j = 1 := by omega
    · simp only [Nat.add_zero]
      rw [pack12_raw_tail_byte0, pack12_raw_tail_byte0]
    · rw [pack12_raw_tail_byte1, pack12_raw_tail_byte1]
  | case3 dest di =>
    intro dest2 j hj
    simp only [List.length_nil, packedSize] at hj
    omega

theorem unpack12_length (m : Mem) (pi n : Nat) : (unpack12 m pi n).length = n := by
  induction pi, n using unpack12.induct m with
  | case1 pi => rfl
  | case2 pi => rfl
  | case3 pi n ih => simp [unpack12, ih]

theorem unpack12_congr (m : Mem) (pi n : Nat) :
    ∀ m2 : Mem, (∀ i, i < packedSize 12 n → m (pi + i) = m2 (pi + i)) →
      unpack12 m pi n = unpack12 m2 pi n := by
  induction pi, n using unpack12.induct m with
  | case1 pi => intro m2 h; rfl
  | case2 pi =>
    intro m2 h
    have h0 := h 0 (by simp [packedSize])
    have h1 := h 1 (by simp [packedSize])
    simp only [Nat.add_zero] at h0
    simp only [unpack12, rd, h0, h1]
  | case3 pi n ih =>
    intro m2 h
    have hsz : packedSize 12 (n + 2) = 3 + packedSize 12 n := by simp only [packedSize]; omega
    have h0 := h 0 (by rw [hsz]; omega)
    have h1 := h 1 (by rw [hsz]; omega)
    have h2 := h 2 (by rw [hsz]; omega)
    simp only [Nat.add_zero] at h0
    have htail : unpack12 m (pi + 3) n = unpack12 m2 (pi + 3) n := by
      refine ih m2 ?_
      intro i hi
      have := h (3 + i) (by rw [hsz]; omega)
      have harr : pi + (3 + i) = pi + 3 + i := by omega
      rwa [harr] at this
    simp only [unpack12, rd, h0, h1, h2, htail]

theorem unpack12_pack12 (dest : Mem) (syms : List Nat) (di : Nat) :
    (∀ s ∈ syms, s < 4096) → unpack12 (pack12 dest syms di) di syms.length = syms := by
  induction dest, syms, di using pack12.induct with
  | case1 dest di a b rest m1 m2 m3 m4 ih =>
    intro h
    have ha : a < 4096 := h a (by simp)
    have hb : b < 4096 := h b (by simp)
    have hrest : ∀ s ∈ rest, s < 4096 := fun s hs => h s (by simp [hs])
    have hx : a / 256 < 16 := by omega
    have hy : b &&& 15 < 16 := by have := Nat.and_le_right (n := b) (m := 15); omega
    have hb2 : (b &&& 4080) >>> 4 < 256 := by have := and_shr_le b 4080 4; omega
    have hlen : (a :: b :: rest).length = rest.length + 2 := rfl
    rw [hlen, unpack12]
    simp only [rd]
    rw [pack12_group_byte0 dest a b rest di ha,
        pack12_group_byte1 dest a b rest di ha,
        pack12_group_byte2 dest a b rest di]
    have hm0 : a % 256 % 256 = a % 256 := by omega
    rw [hm0, Nat.mod_eq_of_lt (b44_lt _ _ hx hy), Nat.mod_eq_of_lt hb2]
    rw [nibble_lo _ hx _ hy, nibble_hi _ hx _ hy]
    rw [byte_word_eq a ha, byte_and255 _ hb2, twelve_split_eq b hb]
    rw [pack12]
    rw [ih hrest]
  | case2 dest di a =>
    intro h
    have ha : a < 4096 := h a (by simp)
    have hx : a / 256 < 16 := by omega
    have hlen : ([a] : List Nat).length = 1 := rfl
    rw [hlen, unpack12]
    simp only [rd]
    rw [pack12_tail_byte0 dest a di ha, pack12_tail_byte1 dest a di ha]
    have hm0 : a % 256 % 256 = a % 256 := by omega
    have hm1 : a / 256 % 256 = a / 256 := by omega
    rw [hm0, hm1, nibble_id _ hx, byte_word_eq a ha]
  | case3 dest di =>
    intro h
    rfl

/-! Range bounds on unpacked symbols: every extracted field is masked or is a raw byte. -/

theorem u6_e0_lt (x : Nat) : x &&& 63 < 64 := by
  have := Nat.and_le_right (n := x) (m := 63)
  omega

theorem u6_e1_lt (x y : Nat) : ((x &&& 192) >>> 6) ||| ((y &&& 15) <<< 2) < 64 := by
  refine lor_lt_64 _ _ ?_ ?_
  · have h := and_shr_le x 192 6
    have h2 : (192 : Nat) >>> 6 = 3 := by decide
    omega
  · have h := shl_le_shl (y &&& 15) 15 2 Nat.and_le_right
    have h2 : (15 : Nat) <<< 2 = 60 := by decide
    omega

theorem u6_e2_lt (x y : Nat) : ((x &&& 240) >>> 4) ||| ((y &&& 3) <<< 4) < 64 := by
  refine lor_lt_64 _ _ ?_ ?_
  · have h := and_shr_le x 240 4
    have h2 : (240 : Nat) >>> 4 = 15 := by decide
    omega
  · have h := shl_le_shl (y &&& 3) 3 4 Nat.and_le_right
    have h2 : (3 : Nat) <<< 4 = 48 := by decide
    omega

theorem u6_e3_lt (x : Nat) : (x &&& 252) >>> 2 < 64 := by
  have h := and_shr_le x 252 2
  have h2 : (252 : Nat) >>> 2 = 63 := by decide
  omega

theorem unpack6_range (m : Mem) (pi n : Nat) : ∀ s ∈ unpack6 m pi n, s < 64 := by
  induction pi, n using unpack6.induct m with
  | case1 pi => intro s hs; simp [unpack6] at hs
  | case2 pi =>
    intro s hs
    simp only [unpack6, List.mem_singleton] at hs
    subst hs
    exact u6_e0_lt _
  | case3 pi =>
    intro s hs
    simp only [unpack6, List.mem_cons, List.not_mem_nil, or_false] at hs
    rcases hs with rfl | rfl
    · exact u6_e0_lt _
    · exact u6_e1_lt _ _
  | case4 pi =>
    intro s hs
    simp only [unpack6, List.mem_cons, List.not_mem_nil, or_false] at hs
    rcases hs with rfl | rfl | rfl
    · exact u6_e0_lt _
    · exact u6_e1_lt _ _
    · exact u6_e2_lt _ _
  | case5 pi n ih =>
    intro s hs
    simp only [unpack6, List.mem_cons] at hs
    rcases hs with rfl | rfl | rfl | rfl | hs
    · exact u6_e0_lt _
    · exact u6_e1_lt _ _
    · exact u6_e2_lt _ _
    · exact u6_e3_lt _
    · exact ih s hs

theorem u4_e0_lt (x : Nat) : x &&& 15 < 16 := by
  have := Nat.and_le_right (n := x) (m := 15)
  omega

theorem u4_e1_lt (x : Nat) : (x &&& 240) >>> 4 < 16 := by
  have h := and_shr_le x 240 4
  have h2 : (240 : Nat) >>> 4 = 15 := by decide
  omega

theorem unpack4_range (m : Mem) (pi n : Nat) : ∀ s ∈ unpack4 m pi n, s < 16 := by
  induction pi, n using unpack4.induct m with
  | case1 pi => intro s hs; simp [unpack4] at hs
  | case2 pi =>
    intro s hs
    simp only [unpack4, List.mem_singleton] at hs
    subst hs
    exact u4_e0_lt _
  | case3 pi n ih =>
    intro s hs
    simp only [unpack4, List.mem_cons] at hs
    rcases hs with rfl | rfl | hs
    · exact u4_e0_lt _
    · exact u4_e1_lt _
    · exact ih s hs

theorem unpack8_range (m : Mem) (pi n : Nat) : ∀ s ∈ unpack8 m pi n, s < 256 := by
  induction pi, n using unpack8.induct m with
  | case1 pi => intro s hs; simp [unpack8] at hs
  | case2 pi n ih =>
    intro s hs
    simp only [unpack8, List.mem_cons] at hs
    rcases hs with rfl | hs
    · exact rd_lt_256 _ _
    · exact ih s hs

theorem u12_e0_lt (x y : Nat) (hx : x < 256) : x ||| ((y &&& 15) <<< 8) < 4096 := by
  refine lor_lt_4096 _ _ (by omega) ?_
  have h := shl_le_shl (y &&& 15) 15 8 Nat.and_le_right
  have h2 : (15 : Nat) <<< 8 = 3840 := by decide
  omega

theorem u12_e1_lt (x y : Nat) : ((x &&& 240) >>> 4) ||| ((y &&& 255) <<< 4) < 4096 := by
  refine lor_lt_4096 _ _ ?_ ?_
  · have h := and_shr_le x 240 4
    have h2 : (240 : Nat) >>> 4 = 15 := by decide
    omega
  · have h := shl_le_shl (y &&& 255) 255 4 Nat.and_le_right
    have h2 : (255 : Nat) <<< 4 = 4080 := by decide
    omega

theorem unpack12_range (m : Mem) (pi n : Nat) : ∀ s ∈ unpack12 m pi n, s < 4096 := by
  induction pi, n using unpack12.induct m with
  | case1 pi => intro s hs; simp [unpack12] at hs
  | case2 pi =>
    intro s hs
    simp only [unpack12, List.mem_singleton] at hs
    subst hs
    exact u12_e0_lt _ _ (rd_lt_256 _ _)
  | case3 pi n ih =>
    intro s hs
    simp only [unpack12, List.mem_cons] at hs
    rcases hs with rfl | rfl | hs
    · exact u12_e0_lt _ _ (rd_lt_256 _ _)
    · exact u12_e1_lt _ _
    · exact ih s hs

/-! Claim theorems. -/

/-- C1: For every bit width `w` in {4,6,8,12}, every count (the symbol list length,
including 0 and counts that are not a multiple of the natural group size), and every
symbol array whose values all lie in `[0, 2^w)`, unpacking the result of packing that
array at width `w` yields the original array. -/
theorem c1_roundtrip (dest : Mem) (syms : List Nat) (di : Nat) :
    ((∀ s ∈ syms, s < 2 ^ 4) → unpack4 (pack4 dest syms di) di syms.length = syms)
  ∧ ((∀ s ∈ syms, s < 2 ^ 6) → unpack6 (pack6 dest syms di) di syms.length = syms)
  ∧ ((∀ s ∈ syms, s < 2 ^ 8) → unpack8 (pack8 dest syms di) di syms.length = syms)
  ∧ ((∀ s ∈ syms, s < 2 ^ 12) → unpack12 (pack12 dest syms di) di syms.length = syms) := by
  refine ⟨?_, ?_, ?_, ?_⟩ <;> intro h
  · exact unpack4_pack4 dest syms di (by simpa using h)
  · exact unpack6_pack6 dest syms di (by simpa using h)
  · exact unpack8_pack8 dest syms di (by simpa using h)
  · exact unpack12_pack12 dest syms di (by simpa using h)

/-- C1 witness: a concrete 6-bit round trip on three symbols (count not a multiple
of the group size 4). -/
theorem c1_roundtrip_witness :
    unpack6 (pack6 (fun _ => 0) [1, 2, 3] 0) 0 3 = [1, 2, 3] :=
  (c1_roundtrip (fun _ => 0) [1, 2, 3] 0).2.1 (by decide)

/-- C2: For every bit width `w` in {4,6,8,12} and every count, `packW` writes exactly
the first `ceil(count*w/8)` bytes of the destination — every byte at or beyond that
index is untouched, every byte below it is fully determined by the symbols alone
(independent of the previous destination contents), and a count of 0 performs no
writes at all; `unpackW` writes exactly `count` symbols and reads only the first
`ceil(count*w/8)` packed bytes (its output is unchanged if the buffer is altered
anywhere else). -/
theorem c2_byte_size_contract (dest dest2 m m2 : Mem) (syms : List Nat)
    (di pi n j : Nat) :
    ((di + packedSize 4 syms.length ≤ j → pack4 dest syms di j = dest j)
      ∧ pack4 dest [] di = dest
      ∧ (j < packedSize 4 syms.length →
          pack4 dest syms di (di + j) = pack4 dest2 syms di (di + j))
      ∧ (unpack4 m pi n).length = n
      ∧ ((∀ i, i < packedSize 4 n → m (pi + i) = m2 (pi + i)) →
          unpack4 m pi n = unpack4 m2 pi n))
  ∧ ((di + packedSize 6 syms.length ≤ j → pack6 dest syms di j = dest j)
      ∧ pack6 dest [] di = dest
      ∧ (j < packedSize 6 syms.length →
          pack6 dest syms di (di + j) = pack6 dest2 syms di (di + j))
      ∧ (unpack6 m pi n).length = n
      ∧ ((∀ i, i < packedSize 6 n → m (pi + i) = m2 (pi + i)) →
          unpack6 m pi n = unpack6 m2 pi n))
  ∧ ((di + packedSize 8 syms.length ≤ j → pack8 dest syms di j = dest j)
      ∧ pack8 dest [] di = dest
      ∧ (j < packedSize 8 syms.length →
          pack8 dest syms di (di + j) = pack8 dest2 syms di (di + j))
      ∧ (unpack8 m pi n).length = n
      ∧ ((∀ i, i < packedSize 8 n → m (pi + i) = m2 (pi + i)) →
          unpack8 m pi n = unpack8 m2 pi n))
  ∧ ((di + packedSize 12 syms.length ≤ j → pack12 dest syms di j = dest j)
      ∧ pack12 dest [] di = dest
      ∧ (j < packedSize 12 syms.length →
          pack12 dest syms di (di + j) = pack12 dest2 syms di (di + j))
      ∧ (unpack12 m pi n).length = n
      ∧ ((∀ i, i < packedSize 12 n → m (pi + i) = m2 (pi + i)) →
          unpack12 m pi n = unpack12 m2 pi n)) := by
  refine ⟨⟨?_, rfl, ?_, unpack4_length m pi n, unpack4_congr m pi n m2⟩,
          ⟨?_, rfl, ?_, unpack6_length m pi n, unpack6_congr m pi n m2⟩,
          ⟨?_, rfl, ?_, unpack8_length m pi n, unpack8_congr m pi n m2⟩,
          ⟨?_, rfl, ?_, unpack12_length m pi n, unpack12_congr m pi n m2⟩⟩
  · exact fun hj => pack4_untouched dest syms di j (Or.inr hj)
  · exact fun hj => pack4_written dest syms di dest2 j hj
  · exact fun hj => pack6_untouched dest syms di j (Or.inr hj)
  · exact fun hj => pack6_written dest syms di dest2 j hj
  · exact fun hj => pack8_untouched dest syms di j (Or.inr hj)
  · exact fun hj => pack8_written dest syms di dest2 j hj
  · exact fun hj => pack12_untouched dest syms di j (Or.inr hj)
  · exact fun hj => pack12_written dest syms di dest2 j hj

/-- C2 witness: packing three 6-bit symbols at offset 0 writes ceil(18/8) = 3 bytes and
leaves byte 3 untouched. -/
theorem c2_byte_size_contract_witness :
    pack6 (fun _ => 7) [1, 2, 3] 0 3 = 7 :=
  ((c2_byte_size_contract (fun _ => 7) (fun _ => 0) (fun _ => 0) (fun _ => 0)
      [1, 2, 3] 0 0 0 3).2.1.1 (by decide))

/-- C3: For every supported bit width in {4,6,8,12}, the runtime dispatchers `pack` and
`unpack` produce output identical to the corresponding width-specific function. -/
theorem c3_dispatch (dest m : Mem) (syms : List Nat) (di pi n : Nat) :
    pack 4 dest syms di = pack4 dest syms di
  ∧ pack 6 dest syms di = pack6 dest syms di
  ∧ pack 8 dest syms di = pack8 dest syms di
  ∧ pack 12 dest syms di = pack12 dest syms di
  ∧ unpack 4 m pi n = unpack4 m pi n
  ∧ unpack 6 m pi n = unpack6 m pi n
  ∧ unpack 8 m pi n = unpack8 m pi n
  ∧ unpack 12 m pi n = unpack12 m pi n :=
  ⟨rfl, rfl, rfl, rfl, rfl, rfl, rfl, rfl⟩

/-- C4: For every bit count outside {4,6,8,12} the dispatchers raise no error and
perform no action: `pack` leaves the destination buffer unchanged and `unpack` writes
no symbols into the output buffer. -/
theorem c4_unsupported (b : Nat) (hb4 : b ≠ 4) (hb6 : b ≠ 6) (hb8 : b ≠ 8)
    (hb12 : b ≠ 12) (dest m : Mem) (syms : List Nat) (di pi n : Nat) :
    pack b dest syms di = dest ∧ unpack b m pi n = [] := by
  constructor
  · unfold pack
    split
    · omega
    · omega
    · omega
    · omega
    · rfl
  · unfold unpack
    split
    · omega
    · omega
    · omega
    · omega
    · rfl

/-- C4 witness: bit count 5 is unsupported and both dispatchers do nothing. -/
theorem c4_unsupported_witness :
    pack 5 (fun _ => 9) [1] 0 = (fun _ => 9 : Mem) ∧ unpack 5 (fun _ => 9) 0 1 = [] :=
  c4_unsupported 5 (by decide) (by decide) (by decide) (by decide)
    (fun _ => 9) (fun _ => 9) [1] 0 0 1

/-- C5 counterexample: the claim says that with 2 remaining symbols "6 bits of the 2nd
remaining symbol's tail are lost/never written to the output". In fact every bit of the
second remaining symbol is written: its low 2 bits go into byte 0 and its high 4 bits
into byte 1, so the packed bytes depend on it (byte 0 is 192 for symbols [0, 63] but 0
for [0, 0]) and unpacking recovers it exactly. -/
theorem c5_counterexample :
    pack6 (fun _ => 0) [0, 63] 0 0 = 192
  ∧ pack6 (fun _ => 0) [0, 0] 0 0 = 0
  ∧ pack6 (fun _ => 0) [0, 63] 0 1 = 15
  ∧ unpack6 (pack6 (fun _ => 0) [0, 63] 0) 0 2 = [0, 63] := by
  decide

/-- C5 amended: for 6-bit packing with count % 4 = r, r in {1,2,3}, the partial group
writes exactly r bytes (1 remaining symbol writes 1 byte, 2 write 2 bytes, 3 write 3
bytes) after the 3·(count/4) full-group bytes, and no bits are lost: every bit of every
remaining symbol is written, since unpacking the packed buffer returns all symbols
exactly. -/
theorem c5_tail_bytes (dest : Mem) (syms : List Nat) (di : Nat)
    (hr : syms.length % 4 = 1 ∨ syms.length % 4 = 2 ∨ syms.length % 4 = 3) :
    (∀ j, di + 3 * (syms.length / 4) + syms.length % 4 ≤ j →
        pack6 dest syms di j = dest j)
  ∧ ((∀ s ∈ syms, s < 64) → unpack6 (pack6 dest syms di) di syms.length = syms) := by
  constructor
  · intro j hj
    refine pack6_untouched dest syms di j (Or.inr ?_)
    have hps : packedSize 6 syms.length = 3 * (syms.length / 4) + syms.length % 4 := by
      simp only [packedSize]
      omega
    omega
  · exact unpack6_pack6 dest syms di

/-- C5 amended witness: two remaining symbols write exactly 2 bytes (byte 2 untouched)
and round-trip exactly. -/
theorem c5_tail_bytes_witness :
    pack6 (fun _ => 5) [1, 2] 0 2 = 5
  ∧ unpack6 (pack6 (fun _ => 5) [1, 2] 0) 0 2 = [1, 2] := by
  have h := c5_tail_bytes (fun _ => 5) [1, 2] 0 (by decide)
  exact ⟨h.1 2 (by decide), h.2 (by decide)⟩

/-- C6 counterexample: the claim says the final byte's upper nibble is "left unwritten
(undefined, not zeroed)". In fact the tail code assigns the whole final byte: 4-bit
packing of [5] over a buffer previously holding 255 everywhere yields byte 5 (upper
nibble zeroed), not 245 = 0xF5; 12-bit packing of [2748 = 0xABC] yields second byte
10 = 0x0A, not 250 = 0xFA. -/
theorem c6_counterexample :
    pack4 (fun _ => 255) [5] 0 0 = 5
  ∧ pack4 (fun _ => 255) [5] 0 0 ≠ 245
  ∧ pack12 (fun _ => 255) [2748] 0 1 = 10
  ∧ pack12 (fun _ => 255) [2748] 0 1 ≠ 250 := by
  decide

theorem pack4_last_odd : ∀ (k : Nat) (front : List Nat), front.length = k →
    ∀ (dest : Mem) (s di : Nat), front.length % 2 = 0 →
      pack4 dest (front ++ [s]) di (di + front.length / 2) = s % 256 := by
  intro k
  induction k using Nat.strong_induction_on with
  | _ k ih =>
    intro front hlen dest s di he
    match front with
    | [] =>
      simpa using pack4_raw_tail dest s di
    | [a] =>
      simp at he
    | a :: b :: front2 =>
      have hl : (a :: b :: front2).length = front2.length + 2 := rfl
      have he2 : front2.length % 2 = 0 := by rw [hl] at he; omega
      have harith : di + (a :: b :: front2).length / 2 = di + 1 + front2.length / 2 := by
        rw [hl]; omega
      rw [harith]
      show pack4 dest (a :: b :: (front2 ++ [s])) di (di + 1 + front2.length / 2) = s % 256
      rw [pack4]
      exact ih (k - 2) (by rw [hl] at hlen; omega) front2 (by rw [hl] at hlen; omega)
        _ s (di + 1) he2

theorem pack12_last_odd : ∀ (k : Nat) (front : List Nat), front.length = k →
    ∀ (dest : Mem) (s di : Nat), front.length % 2 = 0 →
      pack12 dest (front ++ [s]) di (di + 3 * (front.length / 2)) = (s &&& 255) % 256
    ∧ pack12 dest (front ++ [s]) di (di + 3 * (front.length / 2) + 1) =
        (s &&& 3840) >>> 8 % 256 := by
  intro k
  induction k using Nat.strong_induction_on with
  | _ k ih =>
    intro front hlen dest s di he
    match front with
    | [] =>
      constructor
      · simpa using pack12_raw_tail_byte0 dest s di
      · simpa using pack12_raw_tail_byte1 dest s di
    | [a] =>
      simp at he
    | a :: b :: front2 =>
      have hl : (a :: b :: front2).length = front2.length + 2 := rfl
      have he2 : front2.length % 2 = 0 := by rw [hl] at he; omega
      have harith : di + 3 * ((a :: b :: front2).length / 2) =
          di + 3 + 3 * (front2.length / 2) := by
        rw [hl]; omega
      rw [harith]
      have hrec := ih (k - 2) (by rw [hl] at hlen; omega) front2 (by rw [hl] at hlen; omega)
        (pack12 dest (a :: b :: front2 ++ [s]) di) s (di + 3) he2
      constructor
      · show pack12 dest (a :: b :: (front2 ++ [s])) di (di + 3 + 3 * (front2.length / 2)) =
          (s &&& 255) % 256
        rw [pack12]
        exact (ih (k - 2) (by rw [hl] at hlen; omega) front2 (by rw [hl] at hlen; omega)
          _ s (di + 3) he2).1
      · show pack12 dest (a :: b :: (front2 ++ [s])) di
            (di + 3 + 3 * (front2.length / 2) + 1) = (s &&& 3840) >>> 8 % 256
        rw [pack12]
        exact (ih (k - 2) (by rw [hl] at hlen; omega) front2 (by rw [hl] at hlen; omega)
          _ s (di + 3) he2).2

/-- C6 amended: with an odd count, the final 4-bit byte is fully assigned, not partially
written: it equals the last symbol itself, so its lower nibble holds the symbol and its
upper nibble is zeroed (it does not keep the destination's previous contents); likewise
the leftover 12-bit symbol writes two fully assigned bytes, the second holding the
symbol's top nibble in its low nibble and zero in its upper nibble. -/
theorem c6_tail_byte (dest : Mem) (front : List Nat) (s4 s12 di : Nat)
    (he : front.length % 2 = 0) (h4 : s4 < 16) (h12 : s12 < 4096) :
    (pack4 dest (front ++ [s4]) di (di + front.length / 2) = s4
      ∧ pack4 dest (front ++ [s4]) di (di + front.length / 2) / 16 = 0)
  ∧ (pack12 dest (front ++ [s12]) di (di + 3 * (front.length / 2)) = s12 % 256
      ∧ pack12 dest (front ++ [s12]) di (di + 3 * (front.length / 2) + 1) = s12 / 256
      ∧ pack12 dest (front ++ [s12]) di (di + 3 * (front.length / 2) + 1) / 16 = 0) := by
  have h4b := pack4_last_odd front.length front rfl dest s4 di he
  have h12b := pack12_last_odd front.length front rfl dest s12 di he
  have hb0 : (s12 &&& 255) % 256 = s12 % 256 := by
    rw [and255_eq_mod s12 h12]; omega
  have hb1 : (s12 &&& 3840) >>> 8 % 256 = s12 / 256 := by
    rw [and3840_shr8 s12 h12]; omega
  refine ⟨⟨?_, ?_⟩, ?_, ?_, ?_⟩
  · rw [h4b]; omega
  · rw [h4b]; omega
  · rw [h12b.1, hb0]
  · rw [h12b.2, hb1]
  · rw [h12b.2, hb1]; omega

/-- C6 amended witness: concrete odd-count tails at offset 0. -/
theorem c6_tail_byte_witness :
    (pack4 (fun _ => 255) [5] 0 0 = 5 ∧ pack4 (fun _ => 255) [5] 0 0 / 16 = 0)
  ∧ (pack12 (fun _ => 255) [2748] 0 0 = 188
      ∧ pack12 (fun _ => 255) [2748] 0 1 = 10
      ∧ pack12 (fun _ => 255) [2748] 0 1 / 16 = 0) :=
  c6_tail_byte (fun _ => 255) [] 5 2748 0 (by decide) (by decide) (by decide)

/-- C7: Every full group of four 6-bit symbols (a,b,c,d), each below 64, is packed into
exactly the byte triple B0 = a OR (b AND 3) shifted left 6, B1 = ((b shifted right 2)
AND 15) OR (c AND 15) shifted left 4, B2 = ((c shifted right 4) AND 3) OR d shifted
left 2 — symbols in input order, least-significant-bit-first within each byte. -/
theorem c7_full_group (dest : Mem) (a b c d : Nat) (rest : List Nat) (di : Nat)
    (ha : a < 64) (hb : b < 64) (hc : c < 64) (hd : d < 64) :
    pack6 dest (a :: b :: c :: d :: rest) di di = a ||| ((b &&& 3) <<< 6)
  ∧ pack6 dest (a :: b :: c :: d :: rest) di (di + 1) =
      ((b >>> 2) &&& 15) ||| ((c &&& 15) <<< 4)
  ∧ pack6 dest (a :: b :: c :: d :: rest) di (di + 2) =
      ((c >>> 4) &&& 3) ||| (d <<< 2) := by
  refine ⟨pack6_group_byte0 dest a b c d rest di ha hb, ?_, ?_⟩
  · rw [pack6_group_byte1 dest a b c d rest di hb hc, six_shr2 b hb]
  · rw [pack6_group_byte2 dest a b c d rest di hc hd, six_shr4 c hc]

/-- C7 witness: the group (1,2,3,4) packs to bytes (129, 48, 16). -/
theorem c7_full_group_witness :
    pack6 (fun _ => 0) [1, 2, 3, 4] 0 0 = 129
  ∧ pack6 (fun _ => 0) [1, 2, 3, 4] 0 1 = 48
  ∧ pack6 (fun _ => 0) [1, 2, 3, 4] 0 2 = 16 :=
  c7_full_group (fun _ => 0) 1 2 3 4 [] 0 (by decide) (by decide) (by decide) (by decide)

/-- C8: `Prepare` fails with a configuration error iff `bitsPerSymbol` is zero (the
error is thrown before any mutation, so no state changes); otherwise it succeeds,
computing `symbolsPerCell` as the product of all shape dimensions, creating an encoder
with `2 ^ bitsPerSymbol` levels, allocating the pack buffer to
`stride = sizeof(float) + ceil(symbolsPerCell * bitsPerSymbol / 8)` bytes and resizing
both scratch buffers to `symbolsPerCell` elements; its result depends only on
`bitsPerSymbol` and the shape, so it is callable again after a shape change and prior
buffers are released (replaced) first. -/
theorem c8_prepare (s : OffringaWeightColumnState) :
    (Prepare s = Except.error "bitsPerSymbol not initialized in OffringaWeightCol" ↔
      s.bitsPerSymbol = 0)
  ∧ (s.bitsPerSymbol ≠ 0 → Prepare s = Except.ok (preparedState s))
  ∧ (∀ s2 : OffringaWeightColumnState, s.bitsPerSymbol = s2.bitsPerSymbol →
      s.shape = s2.shape → Prepare s = Prepare s2) := by
  refine ⟨⟨?_, ?_⟩, ?_, ?_⟩
  · intro h
    by_contra hb
    simp only [Prepare, if_neg hb] at h
    exact Except.noConfusion h
  · intro h
    simp only [Prepare, if_pos h]
  · intro h
    simp only [Prepare, if_neg h, preparedState, Stride, Except.ok.injEq]
    have hfold : s.shape.foldl (fun a b => a * b) 1 = s.shape.prod :=
      (List.prod_eq_foldl).symm
    have hsh : 1 <<< s.bitsPerSymbol = 2 ^ s.bitsPerSymbol := Nat.one_shiftLeft _
    rw [hfold, hsh]
  · intro s2 hb hsh
    simp only [Prepare, hb, hsh]

/-- C8 witness: preparing a column with 2 bits per symbol and shape 3 × 4 succeeds with
12 symbols per cell, a 4-level encoder and a 4 + ceil(12·2/8) = 7 byte pack buffer. -/
theorem c8_prepare_witness :
    Prepare ⟨2, [3, 4], none, 0, none, 0, 0⟩ =
      Except.ok ⟨2, [3, 4], some 4, 12, some 7, 12, 12⟩ :=
  (c8_prepare ⟨2, [3, 4], none, 0, none, 0, 0⟩).2.1 (by decide)

theorem writeScale_untouched (m : Mem) (v j : Nat) (hj : 4 ≤ j) :
    writeScale m v j = m j := by
  simp only [writeScale]
  rw [wr_ne _ _ _ _ (by omega), wr_ne _ _ _ _ (by omega), wr_ne _ _ _ _ (by omega),
      wr_ne _ _ _ _ (by omega)]

theorem readScale_writeScale (m : Mem) (v : Nat) (hv : v < 4294967296) :
    readScale (writeScale m v) = v := by
  have h0 : writeScale m v 0 = v % 256 := by
    simp only [writeScale]
    rw [wr_ne _ _ _ _ (by omega), wr_ne _ _ _ _ (by omega), wr_ne _ _ _ _ (by omega),
        wr_self]
  have h1 : writeScale m v 1 = v / 256 % 256 := by
    simp only [writeScale]
    rw [wr_ne _ _ _ _ (by omega), wr_ne _ _ _ _ (by omega), wr_self]
  have h2 : writeScale m v 2 = v / 65536 % 256 := by
    simp only [writeScale]
    rw [wr_ne _ _ _ _ (by omega), wr_self]
  have h3 : writeScale m v 3 = v / 16777216 % 256 := by
    simp only [writeScale]
    rw [wr_self]
  simp only [readScale, rd, h0, h1, h2, h3]
  omega

/-- C9: After `Prepare`, a cell buffer written by the write path has the layout
[4-byte scale][packed payload]: the scale occupies exactly bytes 0-3 (reading them back
recovers it, because packing starts at byte offset `sizeof(float) = 4` and never
touches them), the symbols are packed by the runtime dispatcher from offset 4 and are
recovered exactly by the read path, and the whole write stays within the stride-sized
buffer (bytes at or beyond `Stride` are untouched). -/
theorem c9_cell_layout (w spc scaleBits : Nat) (symbols : List Nat) (m : Mem)
    (hw : w = 4 ∨ w = 6 ∨ w = 8 ∨ w = 12)
    (hlen : symbols.length = spc)
    (hs : ∀ s ∈ symbols, s < 2 ^ w)
    (hscale : scaleBits < 4294967296) :
    getArrayfloatV w spc (putArrayfloatV w scaleBits symbols m) = (scaleBits, symbols)
  ∧ (∀ j, Stride spc w ≤ j → putArrayfloatV w scaleBits symbols m j = m j) := by
  subst hlen
  rcases hw with rfl | rfl | rfl | rfl
  · refine ⟨Prod.ext ?_ ?_, ?_⟩
    · show readScale (pack4 (writeScale m scaleBits) symbols 4) = scaleBits
      have hfr : ∀ i, i < 4 →
          pack4 (writeScale m scaleBits) symbols 4 i = writeScale m scaleBits i :=
        fun i hi => pack4_untouched _ _ _ i (Or.inl hi)
      simp only [readScale, rd, hfr 0 (by omega), hfr 1 (by omega), hfr 2 (by omega),
        hfr 3 (by omega)]
      have := readScale_writeScale m scaleBits hscale
      simp only [readScale, rd] at this
      exact this
    · show unpack4 (pack4 (writeScale m scaleBits) symbols 4) 4 symbols.length = symbols
      exact unpack4_pack4 _ symbols 4 (by simpa using hs)
    · intro j hj
      show pack4 (writeScale m scaleBits) symbols 4 j = m j
      rw [pack4_untouched _ _ _ j (Or.inr (by simp only [Stride, packedSize] at hj ⊢; omega))]
      exact writeScale_untouched m scaleBits j (by simp only [Stride] at hj; omega)
  · refine ⟨Prod.ext ?_ ?_, ?_⟩
    · show readScale (pack6 (writeScale m scaleBits) symbols 4) = scaleBits
      have hfr : ∀ i, i < 4 →
          pack6 (writeScale m scaleBits) symbols 4 i = writeScale m scaleBits i :=
        fun i hi => pack6_untouched _ _ _ i (Or.inl hi)
      simp only [readScale, rd, hfr 0 (by omega), hfr 1 (by omega), hfr 2 (by omega),
        hfr 3 (by omega)]
      have := readScale_writeScale m scaleBits hscale
      simp only [readScale, rd] at this
      exact this
    · show unpack6 (pack6 (writeScale m scaleBits) symbols 4) 4 symbols.length = symbols
      exact unpack6_pack6 _ symbols 4 (by simpa using hs)
    · intro j hj
      show pack6 (writeScale m scaleBits) symbols 4 j = m j
      rw [pack6_untouched _ _ _ j (Or.inr (by simp only [Stride, packedSize] at hj ⊢; omega))]
      exact writeScale_untouched m scaleBits j (by simp only [Stride] at hj; omega)
  · refine ⟨Prod.ext ?_ ?_, ?_⟩
    · show readScale (pack8 (writeScale m scaleBits) symbols 4) = scaleBits
      have hfr : ∀ i, i < 4 →
          pack8 (writeScale m scaleBits) symbols 4 i = writeScale m scaleBits i :=
        fun i hi => pack8_untouched _ _ _ i (Or.inl hi)
      simp only [readScale, rd, hfr 0 (by omega), hfr 1 (by omega), hfr 2 (by omega),
        hfr 3 (by omega)]
      have := readScale_writeScale m scaleBits hscale
      simp only [readScale, rd] at this
      exact this
    · show unpack8 (pack8 (writeScale m scaleBits) symbols 4) 4 symbols.length = symbols
      exact unpack8_pack8 _ symbols 4 (by simpa using hs)
    · intro j hj
      show pack8 (writeScale m scaleBits) symbols 4 j = m j
      rw [pack8_untouched _ _ _ j (Or.inr (by simp only [Stride, packedSize] at hj ⊢; omega))]
      exact writeScale_untouched m scaleBits j (by simp only [Stride] at hj; omega)
  · refine ⟨Prod.ext ?_ ?_, ?_⟩
    · show readScale (pack12 (writeScale m scaleBits) symbols 4) = scaleBits
      have hfr : ∀ i, i < 4 →
          pack12 (writeScale m scaleBits) symbols 4 i = writeScale m scaleBits i :=
        fun i hi => pack12_untouched _ _ _ i (Or.inl hi)
      simp only [readScale, rd, hfr 0 (by omega), hfr 1 (by omega), hfr 2 (by omega),
        hfr 3 (by omega)]
      have := readScale_writeScale m scaleBits hscale
      simp only [readScale, rd] at this
      exact this
    · show unpack12 (pack12 (writeScale m scaleBits) symbols 4) 4 symbols.length = symbols
      exact unpack12_pack12 _ symbols 4 (by simpa using hs)
    · intro j hj
      show pack12 (writeScale m scaleBits) symbols 4 j = m j
      rw [pack12_untouched _ _ _ j (Or.inr (by simp only [Stride, packedSize] at hj ⊢; omega))]
      exact writeScale_untouched m scaleBits j (by simp only [Stride] at hj; omega)

/-- C9 witness: a concrete 6-bit cell with 3 symbols and scale pattern 0x12345678:
reading back the written buffer recovers both, and byte 7 = Stride(3, 6) is untouched. -/
theorem c9_cell_layout_witness :
    getArrayfloatV 6 3 (putArrayfloatV 6 305419896 [1, 2, 3] (fun _ => 9)) =
      (305419896, [1, 2, 3])
  ∧ putArrayfloatV 6 305419896 [1, 2, 3] (fun _ => 9) 7 = 9 := by
  have h := c9_cell_layout 6 3 305419896 [1, 2, 3] (fun _ => 9) (by decide) rfl
    (by decide) (by decide)
  exact ⟨h.1, h.2 7 (by decide)⟩

/-- C10: For every supported bit width `w` in {4,6,8,12}, every count and every packed
buffer with arbitrary byte contents (not necessarily produced by packing), every symbol
produced by `unpackW` lies in `[0, 2^w)`: each extracted field is masked or is a raw
byte below 256, so out-of-range symbols can never be produced by unpacking. -/
theorem c10_unpack_range (m : Mem) (pi n : Nat) :
    (∀ s ∈ unpack4 m pi n, s < 2 ^ 4)
  ∧ (∀ s ∈ unpack6 m pi n, s < 2 ^ 6)
  ∧ (∀ s ∈ unpack8 m pi n, s < 2 ^ 8)
  ∧ (∀ s ∈ unpack12 m pi n, s < 2 ^ 12) := by
  refine ⟨?_, ?_, ?_, ?_⟩ <;> intro s hs
  · simpa using unpack4_range m pi n s hs
  · simpa using unpack6_range m pi n s hs
  · simpa using unpack8_range m pi n s hs
  · simpa using unpack12_range m pi n s hs

/-- C10 witness: unpacking one 4-bit symbol from an all-ones buffer yields 15 < 2^4. -/
theorem c10_unpack_range_witness : (15 : Nat) < 2 ^ 4 :=
  (c10_unpack_range (fun _ => 255) 0 1).1 15 (by decide)
